import Mathlib

/-!
# A shallow embedding of the `iffi` crate's validation engine

This file embeds, in Lean, the value-level semantics of the `iffi` crate:
the diagnostic `BitPattern`/`BitRanges` types, the `Error`/`ErrorKind`
taxonomy, the blanket `Iffi` implementations for nicheless types and for
the `NonZero*` integer family, the field-check and enum-dispatch code
produced by the `#[derive(Iffi)]` macro, and the `try_from`/`into`
entry points.  Machine bytes are modelled as natural numbers below 256 in
little-endian order (the crate canonicalises bit patterns to little-endian;
we model a little-endian 64-bit target, so the `cfg(target_endian = "big")`
reversal in the source is compiled out).  Rust type names appearing in
errors are modelled as plain strings.
-/

namespace Iffi

/-- Decidable equality for `Except`, so concrete runs of the fallible
operations can be checked by `decide`. -/
instance instDecEqExcept {ε α : Type} [DecidableEq ε] [DecidableEq α] :
    DecidableEq (Except ε α)
  | .ok x, .ok y =>
    if h : x = y then isTrue (h ▸ rfl)
    else isFalse fun hc => h (Except.ok.inj hc)
  | .error x, .error y =>
    if h : x = y then isTrue (h ▸ rfl)
    else isFalse fun hc => h (Except.error.inj hc)
  | .ok _, .error _ => isFalse fun hc => Except.noConfusion hc
  | .error _, .ok _ => isFalse fun hc => Except.noConfusion hc

/-! ## Byte-level primitives -/

/-- The byte at index `i` of a little-endian byte image; out-of-range reads
give 0 (our encodings always stay in range where it matters). -/
def byteAt (bytes : List Nat) (i : Nat) : Nat := bytes.getD i 0

/-- Read `len` bytes starting at offset `off` of a little-endian byte image
as an unsigned integer. -/
def readLE (bytes : List Nat) : Nat → Nat → Nat
  | _, 0 => 0
  | off, len + 1 => byteAt bytes off + 256 * readLE bytes (off + 1) len

/-- The little-endian byte image of a natural number, `n` bytes wide
(mirrors `to_le_bytes` on unsigned integers). -/
def natLeBytes : Nat → Nat → List Nat
  | 0, _ => []
  | n + 1, v => v % 256 :: natLeBytes n (v / 256)

/-- Reinterpret an `n`-byte unsigned value as a two's-complement signed
integer (the value an `n`-byte signed Rust integer with those bits holds). -/
def toSigned (bytes : Nat) (v : Nat) : Int :=
  if v < 2 ^ (8 * bytes - 1) then (v : Int) else (v : Int) - 2 ^ (8 * bytes)

/-- The little-endian byte image of a (possibly negative) integer, `n` bytes
wide (mirrors `to_le_bytes` on signed integers: two's complement). -/
def intLeBytes (n : Nat) (v : Int) : List Nat :=
  natLeBytes n (v % (2 ^ (8 * n) : Nat)).toNat

/-! ## `BitPattern` and `BitRanges` (src/alloc_bits.rs)

With the `alloc` feature, `BitPattern` is a growable little-endian byte
vector and `BitRanges` a list of inclusive `BitPattern` ranges. -/

/-- `BitPattern` (alloc build): the little-endian bytes of a value. -/
structure BitPattern where
  bytes : List Nat
deriving DecidableEq

/-- `BitPattern::from_le` (alloc build): on a little-endian target this is
just `bytemuck::bytes_of`, i.e. the raw little-endian byte image. -/
def BitPattern.from_le (bytes : List Nat) : BitPattern := ⟨bytes⟩

/-- `BitRanges` (alloc build): a list of inclusive ranges of bit patterns. -/
structure BitRanges where
  ranges : List (BitPattern × BitPattern)
deriving DecidableEq

/-- `BitRanges::from_le` (alloc build): map each inclusive byte range to a
range of bit patterns. -/
def BitRanges.from_le (ranges : List (List Nat × List Nat)) : BitRanges :=
  ⟨ranges.map fun r => (BitPattern.from_le r.1, BitPattern.from_le r.2)⟩

/-! ## `ErrorKind` and `Error` (src/error.rs) -/

/-- `iffi::ErrorKind`.  The `Custom` variant boxes a `dyn Error`; we model
that opaque payload by a natural number. -/
inductive ErrorKind where
  | nullPtr
  | invalidEnumDiscriminant (bits : BitPattern)
  | invalidBitPattern (bits : BitPattern) (valid : BitRanges)
  | custom (payload : Nat)
deriving DecidableEq

/-- The `core::mem::discriminant` of an `ErrorKind` value. -/
def ErrorKind.discr : ErrorKind → Nat
  | .nullPtr => 0
  | .invalidEnumDiscriminant _ => 1
  | .invalidBitPattern _ _ => 2
  | .custom _ => 3

/-- The hand-written `PartialEq for ErrorKind` (src/error.rs:29-46):
the two data-carrying bit-pattern variants compare their payloads, every
other combination falls through to comparing `core::mem::discriminant`. -/
def ErrorKind.beq : ErrorKind → ErrorKind → Bool
  | .invalidEnumDiscriminant l, .invalidEnumDiscriminant r => decide (l = r)
  | .invalidBitPattern lb lv, .invalidBitPattern rb rv =>
      decide (lb = rb) && decide (lv = rv)
  | a, b => decide (a.discr = b.discr)

/-- `iffi::Error`: an `ErrorKind` annotated with the static names of the
universe (`from`) and subset (`into`) types of the pairing whose
`Error::new` call constructed it. -/
structure Error where
  error : ErrorKind
  fromName : String
  intoName : String
deriving DecidableEq

/-- `Error::new::<T, U>` (src/error.rs:58-67): wrap a kind with
`from = type_name::<U>()` and `into = type_name::<T>()`.  The first string
argument is the subset (`T`) name, the second the universe (`U`) name,
matching the order of the type parameters. -/
def Error.new (intoName fromName : String) (error : ErrorKind) : Error :=
  ⟨error, fromName, intoName⟩

/-! ## Blanket `Iffi` implementations (src/impls.rs) -/

/-- `impl<U: Nicheless> Iffi<U> for U` (src/impls.rs:10-14): the identity
pairing always succeeds. -/
def identityCanTransmute {σ : Type} (_ : σ) : Except Error Unit := .ok ()

/-- `impl<U: Nicheless> Iffi<MaybeInvalid<U>> for U` (src/impls.rs:18-22):
a nicheless type validated against `MaybeInvalid` of itself always
succeeds. -/
def nichelessMICanTransmute {σ : Type} (_ : σ) : Except Error Unit := .ok ()

/-- `from_universe` of `impl_nonzero_map!` (src/impls.rs:24-75), shared by
all `NonZero*` types: `size` is `size_of::<$ty2>()`, `v` the bit pattern of
the universe value read as an unsigned integer (for the signed types the
value is zero exactly when its bit pattern is zero, so one unsigned model
covers both).  Succeeds iff the value is non-zero; on zero, reports the
all-zero pattern and the single valid byte range
`[1, 0, ..] ..= [0xff, ..]`. -/
def nonzeroFromUniverse (size : Nat) (tyName uName : String) (v : Nat) :
    Except Error Unit :=
  if v ≠ 0 then .ok ()
  else .error (Error.new tyName uName (.invalidBitPattern
    (BitPattern.from_le (List.replicate size 0))
    (BitRanges.from_le
      [(1 :: List.replicate (size - 1) 0, List.replicate size 255)])))

/-- The `Iffi<MaybeInvalid<NonZeroU8>>` implementation for `NonZeroU8`
(src/impls.rs:42-49): reinterpret the `MaybeInvalid` byte as a `u8` and
run `from_universe` with `U = MaybeInvalid<NonZeroU8>`. -/
def nonZeroU8MICanTransmute (b : Nat) : Except Error Unit :=
  nonzeroFromUniverse 1 "core::num::NonZeroU8"
    "iffi::MaybeInvalid<core::num::NonZeroU8>" b

/-! ## The derive macro's struct validator (macros/src/lib.rs:95-126)

`fields_check` emits `check_1?; check_2?; ...; Ok(())`: every field of the
shadow `Fields` view is checked in declaration order, short-circuiting on
the first error via the `?` operator. -/

/-- The body emitted by `fields_check`: run each per-field check in
declaration order, stopping at (and returning) the first error. -/
def fieldsCheck {σ : Type} : List (σ → Except Error Unit) → σ → Except Error Unit
  | [], _ => .ok ()
  | c :: rest, s =>
    match c s with
    | .ok () => fieldsCheck rest s
    | .error e => .error e

/-- The number of per-field checks a `fieldsCheck` run actually executes
(counting the failing one, if any). -/
def fieldsCheckCount {σ : Type} : List (σ → Except Error Unit) → σ → Nat
  | [], _ => 0
  | c :: rest, s =>
    match c s with
    | .ok () => 1 + fieldsCheckCount rest s
    | .error _ => 1

/-! ## The derive macro's enum validator (macros/src/lib.rs:274-400)

A derived enum's `can_transmute` reads the discriminant-width tag at offset
0, reinterprets the value as the `Variants` union, and matches the tag
against the match arms generated by the loop at macros/src/lib.rs:337-373.
The loop carries `base_discriminant_expr` (reset by an explicit
discriminant) and `discriminant_offset`; arm `i` matches
`base + offset` and runs that variant's payload-field checks (the shadow
struct's `tag` field is skipped via `.skip(1)`, so `check` below holds the
payload checks only). -/

/-- One enum variant as the macro sees it: an optional explicit
discriminant expression and the `fields_check` body for its payload
(tag field already skipped). -/
structure Variant (σ : Type) where
  override : Option Int
  check : σ → Except Error Unit

/-- The arm list built by the loop at macros/src/lib.rs:337-373: each arm
pairs the variant's assigned discriminant `base + offset` with its payload
check; an explicit discriminant resets `base` and the offset counter. -/
def enumArms {σ : Type} : Int → Int → List (Variant σ) →
    List (Int × (σ → Except Error Unit))
  | _, _, [] => []
  | base, offset, v :: rest =>
    match v.override with
    | some k => (k + 0, v.check) :: enumArms k 1 rest
    | none => (base + offset, v.check) :: enumArms base (offset + 1) rest

/-- The discriminant value assigned to each variant, in declaration
order. -/
def assignedDiscriminants {σ : Type} (variants : List (Variant σ)) : List Int :=
  (enumArms 0 0 variants).map Prod.fst

/-- The generated `match tag` expression (macros/src/lib.rs:394-399): try
each arm in declaration order; if no arm's discriminant equals the tag,
fail with `InvalidEnumDiscriminant` carrying the tag's little-endian
bytes, wrapped by `Error::new::<Self, MaybeInvalid<Self>>`. -/
def enumDispatch {σ : Type} (tyName uName : String) (discSize : Nat)
    (tag : Int) : List (Int × (σ → Except Error Unit)) → σ → Except Error Unit
  | [], _ => .error (Error.new tyName uName
      (.invalidEnumDiscriminant (BitPattern.from_le (intLeBytes discSize tag))))
  | (d, chk) :: rest, s =>
    if tag = d then chk s else enumDispatch tyName uName discSize tag rest s

/-- The whole generated enum `can_transmute` body: read the tag, then
dispatch over the generated arms. -/
def enumCanTransmute {σ : Type} (variants : List (Variant σ))
    (tyName uName : String) (discSize : Nat) (readTag : σ → Int) (s : σ) :
    Except Error Unit :=
  enumDispatch tyName uName discSize (readTag s) (enumArms 0 0 variants) s

/-- The number of tag comparisons an `enumDispatch` run performs. -/
def enumDispatchCount {σ : Type} (tag : Int) :
    List (Int × (σ → Except Error Unit)) → Nat
  | [] => 0
  | (d, _) :: rest =>
    if tag = d then 1 else 1 + enumDispatchCount tag rest

/-- Default used with `List.getD` over variant lists (only read out of
range). -/
def variantDefault {σ : Type} : Variant σ := ⟨none, fun _ => .ok ()⟩

/-- Default used with `List.getD` over arm lists (only read out of
range). -/
def armDefault {σ : Type} : Int × (σ → Except Error Unit) :=
  (0, fun _ => .ok ())

/-- Modelled from the spec: conventional C-like discriminant assignment —
each variant's discriminant is one more than the previous variant's,
starting at 0, except an explicit override value replaces it and restarts
the sequence.  Stated as a recurrence with the previous assigned value as
accumulator (initially `-1`); used only to compare the macro's `enumArms`
loop against the spec's description. -/
def cLikeDiscriminants : Int → List (Option Int) → List Int
  | _, [] => []
  | prev, o :: rest =>
    let d := o.getD (prev + 1)
    d :: cLikeDiscriminants d rest

/-! ## Reinterpretation entry points (src/lib.rs:131-157)

`try_from` validates, then transmutes the universe bits to the subset
type; `into` unconditionally transmutes the subset bits to the universe
type.  The transmutes are modelled by explicit maps between the universe
representation `σ` and the subset value type `τ` (for derived types, the
layout-decoding and layout-encoding functions).  The `debug_assert_eq!`
size checks in the source are side-effect-free in release semantics and do
not contribute to the returned value. -/

/-- `iffi::try_from` (src/lib.rs:131-142): run `can_transmute`,
propagating its error via `?`, then reinterpret the bits as `τ`. -/
def try_from {σ τ : Type} (canTransmute : σ → Except Error Unit)
    (transmuteUT : σ → τ) (value : σ) : Except Error τ :=
  match canTransmute value with
  | .error e => .error e
  | .ok () => .ok (transmuteUT value)

/-- `iffi::into` (src/lib.rs:147-157): unconditionally reinterpret the
subset bits as the universe type. -/
def into {σ τ : Type} (transmuteTU : τ → σ) (safe : τ) : σ := transmuteTU safe

/-! ## The `Deep1` .. `Deep8` nesting chain (src/lib.rs:272-299)

`Deep1(NonZeroU8)` and `Deep{i+1}(Deep{i})` are one-byte `#[repr(C)]`
tuple structs.  The derived `can_transmute` for each reinterprets the
incoming `MaybeInvalid` byte as its shadow `Fields` struct (the same
single byte) and checks field 0, so each layer is `fieldsCheck` of the
single inner check on the same byte. -/

/-- Derived `can_transmute` for `Deep1` over `MaybeInvalid<Deep1>`: check
field 0 (`NonZeroU8`) against `MaybeInvalid<NonZeroU8>` (the same byte). -/
def deep1CanTransmute : Nat → Except Error Unit :=
  fieldsCheck [fun b => nonZeroU8MICanTransmute b]

/-- Derived `can_transmute` for `Deep2`. -/
def deep2CanTransmute : Nat → Except Error Unit :=
  fieldsCheck [fun b => deep1CanTransmute b]

/-- Derived `can_transmute` for `Deep3`. -/
def deep3CanTransmute : Nat → Except Error Unit :=
  fieldsCheck [fun b => deep2CanTransmute b]

/-- Derived `can_transmute` for `Deep4`. -/
def deep4CanTransmute : Nat → Except Error Unit :=
  fieldsCheck [fun b => deep3CanTransmute b]

/-- Derived `can_transmute` for `Deep5`. -/
def deep5CanTransmute : Nat → Except Error Unit :=
  fieldsCheck [fun b => deep4CanTransmute b]

/-- Derived `can_transmute` for `Deep6`. -/
def deep6CanTransmute : Nat → Except Error Unit :=
  fieldsCheck [fun b => deep5CanTransmute b]

/-- Derived `can_transmute` for `Deep7`. -/
def deep7CanTransmute : Nat → Except Error Unit :=
  fieldsCheck [fun b => deep6CanTransmute b]

/-- Derived `can_transmute` for `Deep8`. -/
def deep8CanTransmute : Nat → Except Error Unit :=
  fieldsCheck [fun b => deep7CanTransmute b]

/-- A well-defined `Deep8` value is its inner `NonZeroU8` byte: non-zero
and a byte.  `into` and the final transmute of `try_from` are the identity
on the byte image.  `try_from::<Deep8, MaybeInvalid<Deep8>>`: -/
def tryFromDeep8 : Nat → Except Error Nat :=
  try_from deep8CanTransmute (fun b => b)

/-! ## The enum `TA` (src/lib.rs:209-225)

`#[repr(isize, align(1024))] enum TA { A, B, D(u32) = 150,
E { a: u16, b: NonZeroU8 } }` on a 64-bit little-endian target: the
`isize` tag occupies bytes 0..8; in the generated `#[repr(C)]` variant
shadow structs `DFields { tag, field_0: MaybeInvalid<u32> }` the payload
sits at offset 8, and in `EFields { tag, field_a: MaybeInvalid<u16>,
field_b: MaybeInvalid<NonZeroU8> }` `field_a` sits at offset 8 and
`field_b` at offset 10.  The universe value `MaybeInvalid<TA>` is modelled
by its byte image. -/

/-- The values of `TA`. -/
inductive TAval where
  | A
  | B
  | D (payload : Nat)
  | E (a : Nat) (b : Nat)
deriving DecidableEq

/-- Well-definedness of a `TAval`: payloads hold values of their Rust
field types (`u32`, `u16`, non-zero `u8`). -/
def wdTA : TAval → Bool
  | .A | .B => true
  | .D p => p < 2 ^ 32
  | .E a b => a < 2 ^ 16 && 0 < b && b < 2 ^ 8

/-- The macro's variant list for `TA`: `A` and `B` have no payload fields;
`D` has the explicit discriminant 150 and one always-valid `u32` field
(the blanket `Iffi<MaybeInvalid<u32>> for u32` impl); `E` checks
`field_a : u16` via the same blanket impl and `field_b : NonZeroU8` at
byte offset 10. -/
def taVariants : List (Variant (List Nat)) :=
  [⟨none, fieldsCheck []⟩,
   ⟨none, fieldsCheck []⟩,
   ⟨some 150, fieldsCheck [fun bytes => nichelessMICanTransmute bytes]⟩,
   ⟨none, fieldsCheck [fun bytes => nichelessMICanTransmute bytes,
                       fun bytes => nonZeroU8MICanTransmute (byteAt bytes 10)]⟩]

/-- The raw tag read (macros/src/lib.rs:391): `ptr::read` of the first
`size_of::<isize>() = 8` bytes, interpreted as a signed `isize`. -/
def taReadTag (bytes : List Nat) : Int := toSigned 8 (readLE bytes 0 8)

/-- Derived `can_transmute` for `TA` over `MaybeInvalid<TA>`. -/
def taCanTransmute (bytes : List Nat) : Except Error Unit :=
  enumCanTransmute taVariants "TA" "iffi::MaybeInvalid<TA>" 8 taReadTag bytes

/-- The byte image the compiler's layout gives each `TA` value (the
semantics of `into`'s transmute): tag bytes, then the active variant's
payload at its offset, padding zeroed. -/
def encodeTA : TAval → List Nat
  | .A => natLeBytes 8 0 ++ List.replicate 8 0
  | .B => natLeBytes 8 1 ++ List.replicate 8 0
  | .D p => natLeBytes 8 150 ++ (natLeBytes 4 p ++ List.replicate 4 0)
  | .E a b => natLeBytes 8 151 ++ (natLeBytes 2 a ++ (b :: List.replicate 5 0))

/-- Reading a validated byte image back as a `TA` value (the semantics of
`try_from`'s final transmute).  Only reached on images whose tag matched a
variant; the catch-all branch is never hit after validation. -/
def decodeTA (bytes : List Nat) : TAval :=
  if taReadTag bytes = 0 then .A
  else if taReadTag bytes = 1 then .B
  else if taReadTag bytes = 150 then .D (readLE bytes 8 4)
  else .E (readLE bytes 8 2) (byteAt bytes 10)

/-- `try_from::<TA, MaybeInvalid<TA>>` on the byte-image model. -/
def tryFromTA : List Nat → Except Error TAval :=
  try_from taCanTransmute decodeTA

/-! ## `BitPattern` without `alloc` (src/nostd_bits.rs)

In the no-alloc build `BitPattern` is a fixed `[u8; 20]` buffer plus a
length, and `from_le` clamps the length to 20, copying only the first
`min(len, 20)` bytes of the value's little-endian image. -/

/-- `BitPattern` (no-alloc build): a 20-byte buffer and a length. -/
structure NostdBitPattern where
  bytes20 : List Nat
  len : Nat
deriving DecidableEq

/-- `BitPattern::from_le` (src/nostd_bits.rs:19-32, little-endian target):
clamp the length to 20 and copy the first `len` bytes into a zeroed
20-byte buffer. -/
def NostdBitPattern.from_le (bytes : List Nat) : NostdBitPattern :=
  let len := min bytes.length 20
  ⟨bytes.take len ++ List.replicate (20 - len) 0, len⟩

/-! ## Supporting lemmas about the byte-level primitives -/

theorem byteAt_cons_succ (x : Nat) (l : List Nat) (i : Nat) :
    byteAt (x :: l) (i + 1) = byteAt l i := rfl

theorem readLE_cons_succ (x : Nat) (l : List Nat) :
    ∀ (n i : Nat), readLE (x :: l) (i + 1) n = readLE l i n := by
  intro n
  induction n with
  | zero => intro i; rfl
  | succ n ih =>
    intro i
    simp only [readLE, byteAt_cons_succ]
    rw [ih (i + 1)]

theorem natLeBytes_length (n : Nat) : ∀ v, (natLeBytes n v).length = n := by
  induction n with
  | zero => intro v; rfl
  | succ n ih => intro v; simp [natLeBytes, ih]

theorem byteAt_append_right (xs ys : List Nat) (i : Nat) :
    byteAt (xs ++ ys) (xs.length + i) = byteAt ys i := by
  unfold byteAt
  rw [List.getD_append_right _ _ _ _ (Nat.le_add_right _ _),
    Nat.add_sub_cancel_left]

theorem byteAt_append_left (xs ys : List Nat) (i : Nat) (h : i < xs.length) :
    byteAt (xs ++ ys) i = byteAt xs i := by
  unfold byteAt
  rw [List.getD_append _ _ _ _ h]

theorem readLE_append_right (xs ys : List Nat) :
    ∀ (n k : Nat), readLE (xs ++ ys) (xs.length + k) n = readLE ys k n := by
  intro n
  induction n with
  | zero => intro k; rfl
  | succ n ih =>
    intro k
    simp only [readLE, byteAt_append_right]
    rw [show xs.length + k + 1 = xs.length + (k + 1) from rfl, ih (k + 1)]

theorem readLE_natLeBytes : ∀ (m v : Nat) (rest : List Nat),
    readLE (natLeBytes m v ++ rest) 0 m = v % 256 ^ m := by
  intro m
  induction m with
  | zero => intro v rest; simp [readLE, Nat.mod_one]
  | succ m ih =>
    intro v rest
    simp only [natLeBytes, List.cons_append, readLE]
    rw [readLE_cons_succ, ih (v / 256) rest]
    show v % 256 + 256 * (v / 256 % 256 ^ m) = v % 256 ^ (m + 1)
    rw [pow_succ, Nat.mul_comm (256 ^ m) 256, Nat.mod_mul]

theorem byteAt_replicate_zero : ∀ (n i : Nat),
    byteAt (List.replicate n 0) i = 0 := by
  intro n
  induction n with
  | zero => intro i; cases i <;> rfl
  | succ n ih =>
    intro i
    cases i with
    | zero => rfl
    | succ i => rw [List.replicate_succ, byteAt_cons_succ, ih]

theorem readLE_replicate_zero : ∀ (k n off : Nat),
    readLE (List.replicate n 0) off k = 0 := by
  intro k
  induction k with
  | zero => intro n off; rfl
  | succ k ih => intro n off; simp [readLE, byteAt_replicate_zero, ih]

theorem readLE_replicate_255 : ∀ n,
    readLE (List.replicate n 255) 0 n = 256 ^ n - 1 := by
  intro n
  induction n with
  | zero => rfl
  | succ n ih =>
    rw [List.replicate_succ]
    simp only [readLE]
    rw [readLE_cons_succ, ih]
    show 255 + 256 * (256 ^ n - 1) = 256 ^ (n + 1) - 1
    have h1 : 1 ≤ 256 ^ n := Nat.one_le_pow _ _ (by omega)
    rw [pow_succ]
    omega

theorem fieldsCheck_singleton {σ : Type} (c : σ → Except Error Unit) (s : σ) :
    fieldsCheck [c] s = c s := by
  unfold fieldsCheck
  cases h : c s with
  | ok u => cases u; rfl
  | error e => rfl

theorem fieldsCheck_cons_ok {σ : Type} (c : σ → Except Error Unit)
    (rest : List (σ → Except Error Unit)) (s : σ) (h : c s = .ok ()) :
    fieldsCheck (c :: rest) s = fieldsCheck rest s := by
  show (match c s with
    | .ok () => fieldsCheck rest s
    | .error e => .error e) = fieldsCheck rest s
  rw [h]

theorem fieldsCheck_cons_error {σ : Type} (c : σ → Except Error Unit)
    (rest : List (σ → Except Error Unit)) (s : σ) (e : Error)
    (h : c s = .error e) :
    fieldsCheck (c :: rest) s = .error e := by
  show (match c s with
    | .ok () => fieldsCheck rest s
    | .error e => .error e) = .error e
  rw [h]

theorem try_from_ok {σ τ : Type} (canT : σ → Except Error Unit) (f : σ → τ)
    (value : σ) (h : canT value = .ok ()) :
    try_from canT f value = .ok (f value) := by
  unfold try_from
  rw [h]

theorem try_from_error {σ τ : Type} (canT : σ → Except Error Unit) (f : σ → τ)
    (value : σ) (e : Error) (h : canT value = .error e) :
    try_from canT f value = .error e := by
  unfold try_from
  rw [h]

theorem fieldsCheckCount_cons_le {σ : Type} (c : σ → Except Error Unit)
    (rest : List (σ → Except Error Unit)) (s : σ) :
    fieldsCheckCount (c :: rest) s ≤ 1 + fieldsCheckCount rest s := by
  show (match c s with
    | .ok () => 1 + fieldsCheckCount rest s
    | .error _ => 1) ≤ 1 + fieldsCheckCount rest s
  cases h : c s with
  | ok u => cases u; exact Nat.le_refl _
  | error e => exact Nat.le_add_right 1 _

/-! ## Supporting lemmas about the generic enum machinery -/

theorem enumArms_length {σ : Type} : ∀ (vs : List (Variant σ)) (b o : Int),
    (enumArms b o vs).length = vs.length := by
  intro vs
  induction vs with
  | nil => intro b o; rfl
  | cons v rest ih =>
    intro b o
    cases h : v.override <;> simp [enumArms, h, ih]

theorem enumArms_map_fst {σ : Type} : ∀ (vs : List (Variant σ)) (b o : Int),
    (enumArms b o vs).map Prod.fst =
      cLikeDiscriminants (b + o - 1) (vs.map Variant.override) := by
  intro vs
  induction vs with
  | nil => intro b o; rfl
  | cons v rest ih =>
    intro b o
    cases hov : v.override with
    | some k =>
      simp only [enumArms, hov, List.map_cons, cLikeDiscriminants,
        Option.getD_some]
      rw [ih k 1]
      norm_num
    | none =>
      simp only [enumArms, hov, List.map_cons, cLikeDiscriminants,
        Option.getD_none]
      rw [ih b (o + 1)]
      have h1 : b + o - 1 + 1 = b + o := by ring
      have h2 : b + (o + 1) - 1 = b + o := by ring
      rw [h1, h2]

theorem map_fst_getD {σ : Type} :
    ∀ (l : List (Int × (σ → Except Error Unit))) (i : Nat), i < l.length →
      (l.map Prod.fst).getD i 0 = (l.getD i armDefault).1 := by
  intro l
  induction l with
  | nil => intro i hi; simp at hi
  | cons a rest ih =>
    intro i hi
    cases i with
    | zero => rfl
    | succ i =>
      simp only [List.map_cons, List.getD_cons_succ]
      exact ih i (by simpa using hi)

theorem enumArms_getD_snd {σ : Type} :
    ∀ (vs : List (Variant σ)) (b o : Int) (i : Nat), i < vs.length →
      ((enumArms b o vs).getD i armDefault).2 = (vs.getD i variantDefault).check := by
  intro vs
  induction vs with
  | nil => intro b o i hi; simp at hi
  | cons v rest ih =>
    intro b o i hi
    cases i with
    | zero => cases hov : v.override <;> simp [enumArms, hov]
    | succ i =>
      cases hov : v.override <;>
        simp only [enumArms, hov, List.getD_cons_succ] <;>
        exact ih _ _ i (by simpa using hi)

theorem enumDispatch_hit {σ : Type} (tyName uName : String) (discSize : Nat)
    (tag : Int) :
    ∀ (arms : List (Int × (σ → Except Error Unit))) (i : Nat) (s : σ),
      i < arms.length →
      (∀ j, j < i → (arms.getD j armDefault).1 ≠ tag) →
      (arms.getD i armDefault).1 = tag →
      enumDispatch tyName uName discSize tag arms s =
        (arms.getD i armDefault).2 s := by
  intro arms
  induction arms with
  | nil => intro i s hi; simp at hi
  | cons a rest ih =>
    intro i s hi hprev hhit
    obtain ⟨d, chk⟩ := a
    cases i with
    | zero =>
      simp only [List.getD_cons_zero] at hhit ⊢
      unfold enumDispatch
      rw [if_pos hhit.symm]
    | succ i =>
      have h0 : d ≠ tag := by
        have := hprev 0 (Nat.succ_pos i)
        simpa using this
      simp only [List.getD_cons_succ]
      unfold enumDispatch
      rw [if_neg (Ne.symm h0)]
      exact ih i s (by simpa using hi)
        (fun j hj => by simpa using hprev (j + 1) (by omega)) hhit

theorem enumDispatch_miss {σ : Type} (tyName uName : String) (discSize : Nat)
    (tag : Int) :
    ∀ (arms : List (Int × (σ → Except Error Unit))) (s : σ),
      (∀ p ∈ arms, p.1 ≠ tag) →
      enumDispatch tyName uName discSize tag arms s =
        .error (Error.new tyName uName (.invalidEnumDiscriminant
          (BitPattern.from_le (intLeBytes discSize tag)))) := by
  intro arms
  induction arms with
  | nil => intro s _; rfl
  | cons a rest ih =>
    intro s h
    obtain ⟨d, chk⟩ := a
    have hd : d ≠ tag := h (d, chk) (List.mem_cons_self _ _)
    unfold enumDispatch
    rw [if_neg (Ne.symm hd)]
    exact ih s fun p hp => h p (List.mem_cons_of_mem _ hp)

/-! ## Supporting lemmas about the concrete test types -/

/-- Each `Deep` layer just forwards to the inner check on the same byte,
so the eight-deep chain is extensionally the leaf `NonZeroU8` check. -/
theorem deep8_eq_leaf (b : Nat) :
    deep8CanTransmute b = nonZeroU8MICanTransmute b := by
  simp only [deep8CanTransmute, deep7CanTransmute, deep6CanTransmute,
    deep5CanTransmute, deep4CanTransmute, deep3CanTransmute,
    deep2CanTransmute, deep1CanTransmute, fieldsCheck_singleton]

theorem taTag_encodeD (p : Nat) : taReadTag (encodeTA (.D p)) = 150 := by
  unfold taReadTag encodeTA
  rw [readLE_natLeBytes]
  norm_num [toSigned]

theorem taTag_encodeE (a b : Nat) : taReadTag (encodeTA (.E a b)) = 151 := by
  unfold taReadTag encodeTA
  rw [readLE_natLeBytes]
  norm_num [toSigned]

theorem taCanTransmute_tag0 (bytes : List Nat) (h : taReadTag bytes = 0) :
    taCanTransmute bytes = .ok () := by
  unfold taCanTransmute enumCanTransmute
  rw [h]
  rfl

theorem taCanTransmute_tag1 (bytes : List Nat) (h : taReadTag bytes = 1) :
    taCanTransmute bytes = .ok () := by
  unfold taCanTransmute enumCanTransmute
  rw [h]
  rfl

theorem taCanTransmute_tag150 (bytes : List Nat) (h : taReadTag bytes = 150) :
    taCanTransmute bytes = .ok () := by
  unfold taCanTransmute enumCanTransmute
  rw [h]
  rfl

theorem taCanTransmute_tag151 (bytes : List Nat) (h : taReadTag bytes = 151) :
    taCanTransmute bytes = nonZeroU8MICanTransmute (byteAt bytes 10) := by
  unfold taCanTransmute enumCanTransmute
  rw [h]
  show fieldsCheck [fun bytes => nichelessMICanTransmute bytes,
      fun bytes => nonZeroU8MICanTransmute (byteAt bytes 10)] bytes =
    nonZeroU8MICanTransmute (byteAt bytes 10)
  rw [fieldsCheck_cons_ok (fun bytes => nichelessMICanTransmute bytes)
    [fun bytes => nonZeroU8MICanTransmute (byteAt bytes 10)] bytes rfl,
    fieldsCheck_singleton]

theorem readLE_encodeD (p : Nat) (hp : p < 2 ^ 32) :
    readLE (encodeTA (.D p)) 8 4 = p := by
  show readLE (natLeBytes 8 150 ++ (natLeBytes 4 p ++ List.replicate 4 0)) 8 4 = p
  have h := readLE_append_right (natLeBytes 8 150)
    (natLeBytes 4 p ++ List.replicate 4 0) 4 0
  rw [natLeBytes_length, Nat.add_zero] at h
  rw [h, readLE_natLeBytes]
  have h1 : (256 : Nat) ^ 4 = 2 ^ 32 := by norm_num
  exact Nat.mod_eq_of_lt (by omega)

theorem readLE_encodeE_a (a b : Nat) (ha : a < 2 ^ 16) :
    readLE (encodeTA (.E a b)) 8 2 = a := by
  show readLE (natLeBytes 8 151 ++ (natLeBytes 2 a ++ (b :: List.replicate 5 0))) 8 2 = a
  have h := readLE_append_right (natLeBytes 8 151)
    (natLeBytes 2 a ++ (b :: List.replicate 5 0)) 2 0
  rw [natLeBytes_length, Nat.add_zero] at h
  rw [h, readLE_natLeBytes]
  have h1 : (256 : Nat) ^ 2 = 2 ^ 16 := by norm_num
  exact Nat.mod_eq_of_lt (by omega)

theorem byteAt_encodeE_b (a b : Nat) :
    byteAt (encodeTA (.E a b)) 10 = b := by
  show byteAt (natLeBytes 8 151 ++ (natLeBytes 2 a ++ (b :: List.replicate 5 0))) 10 = b
  have h := byteAt_append_right (natLeBytes 8 151)
    (natLeBytes 2 a ++ (b :: List.replicate 5 0)) 2
  rw [natLeBytes_length] at h
  norm_num at h
  rw [h]
  have h2 := byteAt_append_right (natLeBytes 2 a) (b :: List.replicate 5 0) 0
  rw [natLeBytes_length, Nat.add_zero] at h2
  rw [h2]
  rfl

/-! ## Claim theorems -/

/-- C1: for every well-defined value of the depth-8 nesting chain
`Deep8(..Deep1(NonZeroU8)..)` and of the mixed unit/tuple/named-field enum
`TA`, the round trip `try_from (into v)` over the derived `Iffi`
implementations returns `Ok(v)`. -/
theorem roundtrip_deep8_and_ta :
    (∀ v : Nat, 0 < v → v < 2 ^ 8 →
      tryFromDeep8 (into (fun b => b) v) = .ok v)
    ∧ (∀ t : TAval, wdTA t = true → tryFromTA (into encodeTA t) = .ok t) := by
  constructor
  · intro v hv _
    show try_from deep8CanTransmute (fun b => b) v = .ok v
    have h : deep8CanTransmute v = .ok () := by
      rw [deep8_eq_leaf]
      unfold nonZeroU8MICanTransmute nonzeroFromUniverse
      rw [if_pos (by omega)]
    exact try_from_ok _ _ v h
  · intro t hwd
    cases t with
    | A => decide
    | B => decide
    | D p =>
      have hp : p < 2 ^ 32 := by simpa [wdTA] using hwd
      show try_from taCanTransmute decodeTA (encodeTA (.D p)) = .ok (.D p)
      rw [try_from_ok _ _ _ (taCanTransmute_tag150 _ (taTag_encodeD p))]
      unfold decodeTA
      rw [taTag_encodeD]
      norm_num
      exact readLE_encodeD p hp
    | E a b =>
      have hb : a < 2 ^ 16 ∧ 0 < b ∧ b < 2 ^ 8 := by
        simpa [wdTA, and_assoc] using hwd
      show try_from taCanTransmute decodeTA (encodeTA (.E a b)) = .ok (.E a b)
      have hok : taCanTransmute (encodeTA (.E a b)) = .ok () := by
        rw [taCanTransmute_tag151 _ (taTag_encodeE a b), byteAt_encodeE_b]
        unfold nonZeroU8MICanTransmute nonzeroFromUniverse
        rw [if_pos (by omega)]
      rw [try_from_ok _ _ _ hok]
      unfold decodeTA
      rw [taTag_encodeE]
      norm_num
      exact ⟨readLE_encodeE_a a b hb.1, byteAt_encodeE_b a b⟩

/-- Witness for C1 at the concrete values `Deep8(..(5)..)` and
`TA::E { a: 100, b: 3 }`. -/
theorem roundtrip_deep8_and_ta_witness :
    tryFromDeep8 (into (fun b => b) 5) = .ok 5
    ∧ tryFromTA (into encodeTA (.E 100 3)) = .ok (.E 100 3) :=
  ⟨roundtrip_deep8_and_ta.1 5 (by decide) (by decide),
   roundtrip_deep8_and_ta.2 (.E 100 3) (by decide)⟩

/-- C2: the `NonZero*` validators (one per width, all instances of
`nonzeroFromUniverse`) fail iff the universe value is exactly zero; on
failure the error is `InvalidBitPattern` carrying the all-zero observed
pattern and the single valid range whose bounds decode (little-endian) to
`1` and the maximum value for the width. -/
theorem nonzero_rejects_exactly_zero :
    ∀ (size : Nat) (tyName uName : String) (v : Nat), 0 < size →
      (nonzeroFromUniverse size tyName uName v = .ok () ↔ v ≠ 0)
      ∧ (v = 0 → nonzeroFromUniverse size tyName uName v =
          .error (Error.new tyName uName (.invalidBitPattern
            (BitPattern.from_le (List.replicate size 0))
            (BitRanges.from_le
              [(1 :: List.replicate (size - 1) 0, List.replicate size 255)]))))
      ∧ readLE (1 :: List.replicate (size - 1) 0) 0 size = 1
      ∧ readLE (List.replicate size 255) 0 size = 2 ^ (8 * size) - 1 := by
  intro size tyName uName v hsz
  obtain ⟨m, rfl⟩ : ∃ m, size = m + 1 := ⟨size - 1, by omega⟩
  refine ⟨?_, ?_, ?_, ?_⟩
  · unfold nonzeroFromUniverse
    by_cases hv : v = 0 <;> simp [hv]
  · intro hv
    subst hv
    rfl
  · show byteAt (1 :: List.replicate (m + 1 - 1) 0) 0 +
      256 * readLE (1 :: List.replicate (m + 1 - 1) 0) (0 + 1) m = 1
    rw [readLE_cons_succ, readLE_replicate_zero]
    rfl
  · rw [readLE_replicate_255, pow_mul]
    norm_num

/-- Witness for C2 at width 1 (`NonZeroU8` against `u8`) and value 0. -/
theorem nonzero_rejects_exactly_zero_witness :
    nonzeroFromUniverse 1 "core::num::NonZeroU8" "u8" 0 =
      .error (Error.new "core::num::NonZeroU8" "u8" (.invalidBitPattern
        (BitPattern.from_le (List.replicate 1 0))
        (BitRanges.from_le [(1 :: List.replicate 0 0, List.replicate 1 255)]))) :=
  (nonzero_rejects_exactly_zero 1 "core::num::NonZeroU8" "u8" 0
    (by decide)).2.1 rfl

/-- C3: for every derived enum, (a) the assigned discriminants follow the
C-like scheme (sequential from 0, an explicit override resets the running
counter); (b) at validation time a tag equal to a variant's assigned value
(and no earlier variant's) runs exactly that variant's payload-field
checks (the tag field is skipped by construction: `check` holds only the
payload checks); (c) a tag matching no assigned value fails with
`InvalidEnumDiscriminant` carrying the observed tag bytes. -/
theorem derived_enum_dispatch_semantics {σ : Type} :
    (∀ vs : List (Variant σ),
      assignedDiscriminants vs = cLikeDiscriminants (-1) (vs.map Variant.override))
    ∧ (∀ (vs : List (Variant σ)) (tyName uName : String) (discSize : Nat)
        (readTag : σ → Int) (s : σ) (i : Nat),
        i < vs.length →
        (∀ j, j < i → (assignedDiscriminants vs).getD j 0 ≠ readTag s) →
        (assignedDiscriminants vs).getD i 0 = readTag s →
        enumCanTransmute vs tyName uName discSize readTag s =
          (vs.getD i variantDefault).check s)
    ∧ (∀ (vs : List (Variant σ)) (tyName uName : String) (discSize : Nat)
        (readTag : σ → Int) (s : σ),
        readTag s ∉ assignedDiscriminants vs →
        enumCanTransmute vs tyName uName discSize readTag s =
          .error (Error.new tyName uName (.invalidEnumDiscriminant
            (BitPattern.from_le (intLeBytes discSize (readTag s)))))) := by
  refine ⟨?_, ?_, ?_⟩
  · intro vs
    unfold assignedDiscriminants
    rw [enumArms_map_fst]
    norm_num
  · intro vs tyName uName discSize readTag s i hi hprev hhit
    unfold enumCanTransmute
    have hlen : i < (enumArms 0 0 vs).length := by
      rw [enumArms_length]; exact hi
    have hhit' : ((enumArms 0 0 vs).getD i armDefault).1 = readTag s := by
      have := hhit
      rwa [assignedDiscriminants, map_fst_getD _ i hlen] at this
    have hprev' : ∀ j, j < i →
        ((enumArms 0 0 vs).getD j armDefault).1 ≠ readTag s := by
      intro j hj
      have hj' : j < (enumArms 0 0 vs).length := by
        rw [enumArms_length]; omega
      have := hprev j hj
      rwa [assignedDiscriminants, map_fst_getD _ j hj'] at this
    rw [enumDispatch_hit tyName uName discSize (readTag s)
      (enumArms 0 0 vs) i s hlen hprev' hhit']
    rw [enumArms_getD_snd vs 0 0 i hi]
  · intro vs tyName uName discSize readTag s hmem
    unfold enumCanTransmute
    apply enumDispatch_miss
    intro p hp heq
    rw [assignedDiscriminants] at hmem
    exact hmem (heq ▸ List.mem_map_of_mem Prod.fst hp)

/-- Witness for C3 at the enum `TA` (variants `A`, `B`, `D = 150`, `E`):
the assignment matches the C-like scheme (both sides evaluate to
`[0, 1, 150, 151]`), tag 151 dispatches variant `E`'s payload checks, and
the unassigned tag 99 fails with the discriminant error carrying its
bytes. -/
theorem derived_enum_dispatch_semantics_witness :
    assignedDiscriminants (σ := List Nat) taVariants =
      cLikeDiscriminants (-1) (taVariants.map Variant.override)
    ∧ taCanTransmute (encodeTA (.E 100 3)) =
        (taVariants.getD 3 variantDefault).check (encodeTA (.E 100 3))
    ∧ taCanTransmute (natLeBytes 8 99 ++ List.replicate 8 0) =
        .error (Error.new "TA" "iffi::MaybeInvalid<TA>"
          (.invalidEnumDiscriminant (BitPattern.from_le
            (intLeBytes 8 (taReadTag (natLeBytes 8 99 ++ List.replicate 8 0)))))) := by
  refine ⟨derived_enum_dispatch_semantics.1 taVariants,
    derived_enum_dispatch_semantics.2.1 taVariants "TA" "iffi::MaybeInvalid<TA>"
      8 taReadTag (encodeTA (.E 100 3)) 3 (by decide) ?_ (by decide),
    derived_enum_dispatch_semantics.2.2 taVariants "TA" "iffi::MaybeInvalid<TA>"
      8 taReadTag (natLeBytes 8 99 ++ List.replicate 8 0) (by decide)⟩
  intro j hj
  have hcase : j = 0 ∨ j = 1 ∨ j = 2 := by omega
  rcases hcase with rfl | rfl | rfl <;> decide

/-- C4: for every derived struct, the generated `can_transmute` checks
fields strictly in declaration order and short-circuits: if every check
before index `i` succeeds and the check at `i` fails, the returned error
is exactly the one produced at `i` — so with several simultaneously
invalid fields, the first-declared one's error surfaces. -/
theorem struct_first_invalid_field_wins {σ : Type} :
    ∀ (checks : List (σ → Except Error Unit)) (s : σ) (i : Nat) (e : Error),
      i < checks.length →
      (∀ j, j < i → (checks.getD j (fun _ => .ok ())) s = .ok ()) →
      (checks.getD i (fun _ => .ok ())) s = .error e →
      fieldsCheck checks s = .error e := by
  intro checks
  induction checks with
  | nil => intro s i e hi; simp at hi
  | cons c rest ih =>
    intro s i e hi hprev hfail
    cases i with
    | zero =>
      simp only [List.getD_cons_zero] at hfail
      exact fieldsCheck_cons_error c rest s e hfail
    | succ i =>
      have h0 : c s = .ok () := by simpa using hprev 0 (Nat.succ_pos i)
      rw [fieldsCheck_cons_ok c rest s h0]
      exact ih s i e (by simpa using hi)
        (fun j hj => by simpa using hprev (j + 1) (by omega))
        (by simpa using hfail)

/-- Witness for C4: a universe value whose two fields (a `NonZeroU8` and a
`NonZeroU16`) are both invalid (both zero); the reported error is the
first field's width-1 error, not the second field's width-2 error. -/
theorem struct_first_invalid_field_wins_witness :
    fieldsCheck
      [fun s : Nat × Nat => nonZeroU8MICanTransmute s.1,
       fun s : Nat × Nat => nonzeroFromUniverse 2 "core::num::NonZeroU16"
         "iffi::MaybeInvalid<core::num::NonZeroU16>" s.2] (0, 0) =
      .error (Error.new "core::num::NonZeroU8"
        "iffi::MaybeInvalid<core::num::NonZeroU8>"
        (.invalidBitPattern (BitPattern.from_le [0])
          (BitRanges.from_le [([1], [255])]))) :=
  struct_first_invalid_field_wins _ (0, 0) 0 _ (by decide)
    (fun j hj => absurd hj (by omega)) (by decide)

/-- C5 counterexample: converting the zeroed `MaybeInvalid<Deep8>` fails
with an error whose `from`/`into` names are those of the innermost
pairing (`MaybeInvalid<NonZeroU8>` / `NonZeroU8`), which differ from the
overall conversion's type names (`MaybeInvalid<Deep8>` / `Deep8`) — so the
error is not annotated with the overall from/into type names. -/
theorem error_annotation_counterexample :
    tryFromDeep8 0 =
      .error ⟨.invalidBitPattern (BitPattern.from_le [0])
          (BitRanges.from_le [([1], [255])]),
        "iffi::MaybeInvalid<core::num::NonZeroU8>", "core::num::NonZeroU8"⟩
    ∧ "iffi::MaybeInvalid<core::num::NonZeroU8>" ≠ "iffi::MaybeInvalid<Deep8>"
    ∧ "core::num::NonZeroU8" ≠ "Deep8" := by
  refine ⟨by decide, by decide, by decide⟩

/-- C5 (amended): when a nested field check fails, the error produced at
the point of failure is propagated unmodified through every enclosing
level to the top-level caller of `try_from`, annotated with the `from`
(universe) and `into` (subset) type names of the innermost pairing whose
`Error::new` call constructed it — not with the overall conversion's type
names and not with a per-level trace.  Shown on the depth-8 chain: the
top-level result carries the leaf `NonZeroU8` error verbatim. -/
theorem error_propagated_with_origin_names :
    ∀ (b : Nat) (e : Error), nonZeroU8MICanTransmute b = .error e →
      tryFromDeep8 b = .error e
      ∧ e.intoName = "core::num::NonZeroU8"
      ∧ e.fromName = "iffi::MaybeInvalid<core::num::NonZeroU8>" := by
  intro b e h
  have hchain : tryFromDeep8 b = .error e := by
    unfold tryFromDeep8
    apply try_from_error
    rw [deep8_eq_leaf]
    exact h
  have he : e = Error.new "core::num::NonZeroU8"
      "iffi::MaybeInvalid<core::num::NonZeroU8>"
      (.invalidBitPattern (BitPattern.from_le [0])
        (BitRanges.from_le [([1], [255])])) := by
    unfold nonZeroU8MICanTransmute nonzeroFromUniverse at h
    by_cases hb : b ≠ 0
    · rw [if_pos hb] at h
      exact absurd h (by simp)
    · rw [if_neg hb] at h
      exact (Except.error.inj h).symm
  subst he
  exact ⟨hchain, rfl, rfl⟩

/-- Witness for C5's amended theorem at the zeroed input. -/
theorem error_propagated_with_origin_names_witness :
    tryFromDeep8 0 = .error (Error.new "core::num::NonZeroU8"
      "iffi::MaybeInvalid<core::num::NonZeroU8>"
      (.invalidBitPattern (BitPattern.from_le [0])
        (BitRanges.from_le [([1], [255])]))) :=
  (error_propagated_with_origin_names 0 _ (by decide)).1

/-- C6: the blanket implementations — the identity pairing
(`Iffi<U> for U`) and the `MaybeInvalid`-of-itself pairing
(`Iffi<MaybeInvalid<U>> for U`, both for nicheless `U`) — always return
`Ok(())`. -/
theorem blanket_impls_always_ok {σ : Type} :
    ∀ (u : σ) (m : σ),
      identityCanTransmute u = .ok () ∧ nichelessMICanTransmute m = .ok () :=
  fun _ _ => ⟨rfl, rfl⟩

/-- C7: `try_from` fails exactly when `can_transmute` fails, with the same
error; when `can_transmute` succeeds it returns the bit-reinterpretation
of the value; and `into` is the total, unconditional bit-reinterpretation
(the size-equality `debug_assert_eq!`s are debug-only and contribute
nothing to the returned values). -/
theorem try_from_into_semantics {σ τ : Type} :
    ∀ (canT : σ → Except Error Unit) (transmuteUT : σ → τ)
      (transmuteTU : τ → σ) (value : σ) (e : Error) (safe : τ),
      (try_from canT transmuteUT value = .error e ↔ canT value = .error e)
      ∧ (canT value = .ok () →
          try_from canT transmuteUT value = .ok (transmuteUT value))
      ∧ into transmuteTU safe = transmuteTU safe := by
  intro canT transmuteUT transmuteTU value e safe
  refine ⟨?_, fun h => try_from_ok canT transmuteUT value h, rfl⟩
  cases h : canT value with
  | ok u =>
    cases u
    rw [try_from_ok canT transmuteUT value h]
    simp
  | error e2 =>
    rw [try_from_error canT transmuteUT value e2 h]
    exact ⟨fun h2 => congrArg Except.error (Except.error.inj h2),
           fun h2 => congrArg Except.error (Except.error.inj h2)⟩

/-- Witness for C7 at the `NonZeroU8` check and the value 5. -/
theorem try_from_into_semantics_witness :
    try_from nonZeroU8MICanTransmute (fun b : Nat => b) 5 = .ok 5 :=
  (try_from_into_semantics nonZeroU8MICanTransmute (fun b : Nat => b)
    (fun b : Nat => b) 5 (Error.new "x" "y" .nullPtr) 5).2.1 (by decide)

/-- C8: every generated validation body is a total function of its input
(the embedding is a total Lean function, and the source borrows the input
immutably), and its work is bounded by the declared shape: a struct body
runs at most one check per field, an enum body at most one tag comparison
per variant. -/
theorem validation_cost_bounded {σ : Type} :
    ∀ (checks : List (σ → Except Error Unit)) (s : σ)
      (arms : List (Int × (σ → Except Error Unit))) (tag : Int),
      fieldsCheckCount checks s ≤ checks.length
      ∧ enumDispatchCount tag arms ≤ arms.length := by
  intro checks s arms tag
  constructor
  · induction checks with
    | nil => exact Nat.le_refl 0
    | cons c rest ih =>
      calc fieldsCheckCount (c :: rest) s
          ≤ 1 + fieldsCheckCount rest s := fieldsCheckCount_cons_le c rest s
        _ ≤ 1 + rest.length := by omega
        _ = (c :: rest).length := by simp [Nat.add_comm]
  · induction arms with
    | nil => exact Nat.le_refl 0
    | cons a rest ih =>
      obtain ⟨d, chk⟩ := a
      unfold enumDispatchCount
      by_cases htag : tag = d
      · rw [if_pos htag]
        simp
      · rw [if_neg htag]
        simp only [List.length_cons]
        omega

/-- C9: in the no-alloc build, `BitPattern::from_le` on a value wider than
20 bytes clamps the stored length to 20 and keeps only the first 20
little-endian bytes, so two equally-sized wider values agreeing on their
first 20 bytes produce equal `BitPattern`s. -/
theorem nostd_bitpattern_truncates_past_20 :
    ∀ xs ys : List Nat, 20 < xs.length → xs.length = ys.length →
      xs.take 20 = ys.take 20 →
      NostdBitPattern.from_le xs = NostdBitPattern.from_le ys
      ∧ (NostdBitPattern.from_le xs).len = 20
      ∧ (NostdBitPattern.from_le xs).bytes20 = xs.take 20 := by
  intro xs ys hx hlen htake
  have hmx : min xs.length 20 = 20 := by omega
  have hmy : min ys.length 20 = 20 := by omega
  simp only [NostdBitPattern.from_le, hmx, hmy]
  rw [htake]
  simp

/-- Witness for C9: two 21-byte values differing only in byte 20. -/
theorem nostd_bitpattern_truncates_past_20_witness :
    NostdBitPattern.from_le (List.replicate 20 1 ++ [7]) =
      NostdBitPattern.from_le (List.replicate 20 1 ++ [9]) :=
  (nostd_bitpattern_truncates_past_20 (List.replicate 20 1 ++ [7])
    (List.replicate 20 1 ++ [9]) (by decide) (by decide) (by decide)).1

/-- C10: `ErrorKind`'s hand-written equality compares only the variant for
`NullPtr` and `Custom` (any two `Custom` errors are equal regardless of
the boxed payload), compares payloads for `InvalidEnumDiscriminant` and
`InvalidBitPattern`, and distinct variants are never equal. -/
theorem errorkind_eq_semantics :
    ∀ (a b : Nat) (l r b1 b2 : BitPattern) (v1 v2 : BitRanges)
      (k1 k2 : ErrorKind),
      ErrorKind.beq (.custom a) (.custom b) = true
      ∧ ErrorKind.beq .nullPtr .nullPtr = true
      ∧ (ErrorKind.beq (.invalidEnumDiscriminant l)
          (.invalidEnumDiscriminant r) = true ↔ l = r)
      ∧ (ErrorKind.beq (.invalidBitPattern b1 v1)
          (.invalidBitPattern b2 v2) = true ↔ b1 = b2 ∧ v1 = v2)
      ∧ (k1.discr ≠ k2.discr → ErrorKind.beq k1 k2 = false) := by
  intro a b l r b1 b2 v1 v2 k1 k2
  refine ⟨rfl, rfl, by simp [ErrorKind.beq], by simp [ErrorKind.beq], ?_⟩
  intro hne
  cases k1 <;> cases k2 <;>
    simp_all [ErrorKind.beq, ErrorKind.discr]

/-- Witness for C10: two `Custom` errors with different payloads compare
equal, while `NullPtr` and `Custom` compare unequal. -/
theorem errorkind_eq_semantics_witness :
    ErrorKind.beq (.custom 0) (.custom 1) = true
    ∧ ErrorKind.beq .nullPtr (.custom 0) = false :=
  ⟨(errorkind_eq_semantics 0 1 ⟨[]⟩ ⟨[]⟩ ⟨[]⟩ ⟨[]⟩ ⟨[]⟩ ⟨[]⟩
      .nullPtr (.custom 0)).1,
   (errorkind_eq_semantics 0 1 ⟨[]⟩ ⟨[]⟩ ⟨[]⟩ ⟨[]⟩ ⟨[]⟩ ⟨[]⟩
      .nullPtr (.custom 0)).2.2.2.2 (by decide)⟩

end Iffi
